import Mathlib

/-!
Verification of the suggestion/search graph store (`src/store/fst.rs`).

Terms are byte strings, modelled as `List Nat`; the byte-lexicographic
order of Rust byte slices coincides with the lexicographic order on lists.
The pending journal of a graph handle is a pair of finite sets of terms.
The on-disk FST is modelled by its ordered stream of terms plus its byte
size; the FST builder is modelled by the list of words it accepted and the
list of every insertion attempted on it. File-system outcomes that the
consolidator reacts to (open, create, finish, rename) are passed in as
explicit booleans, and the byte counter of the builder is an abstract
function of the words written so far.
-/

namespace Sonic

/-- A term: a byte string (each entry intended in 0..255). -/
abbrev Term := List Nat

/-- Configuration values read from `APP_CONF.store.fst.graph`:
`max_size` (in KiB) and `max_words`. -/
structure FSTConf where
  maxSize : Nat
  maxWords : Nat
deriving DecidableEq

/-- `WORD_LIMIT_LENGTH` from `fst.rs`. -/
def WORD_LIMIT_LENGTH : Nat := 40

/-- State of one graph handle (`StoreFST`): the opened on-disk FST
(ordered word stream plus file byte size), the two pending sets of
`StoreFSTPending`, whether the key is in `GRAPH_CONSOLIDATE`, and the
`last_consolidated` timestamp (seconds, abstract clock). -/
structure StoreFSTState where
  graphWords : List Term
  graphBytes : Nat
  push : Finset Term
  pop : Finset Term
  scheduled : Bool
  lastConsolidated : Nat
deriving DecidableEq

/-- `StoreFSTMisc::check_over_limits`: true when the byte count reaches
`max_size * 1024` or the word count reaches `max_words`. -/
def check_over_limits (c : FSTConf) (bytes_count words_count : Nat) : Bool :=
  if bytes_count ≥ c.maxSize * 1024 then true
  else if words_count ≥ c.maxWords then true
  else false

/-- `StoreFSTAction::word_over_limit`: the term's byte length exceeds 40. -/
def word_over_limit (word : Term) : Bool :=
  word.length > WORD_LIMIT_LENGTH

/-- `StoreFST::should_consolidate`: if the key is not yet in the
consolidate register, insert it and bump `last_consolidated` to now;
otherwise do nothing. -/
def should_consolidate (now : Nat) (st : StoreFSTState) : StoreFSTState :=
  if st.scheduled then st
  else { st with scheduled := true, lastConsolidated := now }

/-- `StoreFSTAction::push_word`. Rejects over-limit words; removes the
word from `pop` when present there; then inserts into `push` only when
the word is absent from the FST and from `push`, `push` is below
`max_words`, and the on-disk FST is not over limits. Returns the reported
boolean and the updated handle state. -/
def push_word (c : FSTConf) (now : Nat) (st : StoreFSTState) (word : Term) :
    Bool × StoreFSTState :=
  if word_over_limit word then (false, st)
  else
    let st1 := if word ∈ st.pop then { st with pop := st.pop.erase word } else st
    if word ∉ st1.graphWords ∧ word ∉ st1.push ∧
        st1.push.card < c.maxWords ∧
        check_over_limits c st1.graphBytes st1.graphWords.length = false then
      (true, should_consolidate now { st1 with push := insert word st1.push })
    else
      (false, st1)

/-- `StoreFSTAction::pop_word`. Rejects over-limit words; removes the
word from `push` when present there; then inserts into `pop` only when
the word is present in the FST and absent from `pop`. -/
def pop_word (now : Nat) (st : StoreFSTState) (word : Term) :
    Bool × StoreFSTState :=
  if word_over_limit word then (false, st)
  else
    let st1 := if word ∈ st.push then { st with push := st.push.erase word } else st
    if word ∈ st1.graphWords ∧ word ∉ st1.pop then
      (true, should_consolidate now { st1 with pop := insert word st1.pop })
    else
      (false, st1)

/-- The FST set builder (`fst::SetBuilder`), modelled by the words it has
accepted (`revWords`, most recent first) and every word whose insertion
was attempted (`revAttempts`, most recent first). An insert succeeds only
when the new word is strictly greater than the last accepted word. -/
structure FSTBuilder where
  revWords : List Term
  revAttempts : List Term
deriving DecidableEq

/-- A fresh builder over an empty temporary file. -/
def emptyBuilder : FSTBuilder := { revWords := [], revAttempts := [] }

/-- One `tmp_fst_builder.insert` call: accepted iff strictly in order. -/
def builder_insert (b : FSTBuilder) (word : Term) : FSTBuilder × Bool :=
  let ok : Bool :=
    match b.revWords with
    | [] => true
    | last :: _ => decide (last < word)
  if ok then
    ({ revWords := word :: b.revWords, revAttempts := word :: b.revAttempts }, true)
  else
    ({ b with revAttempts := word :: b.revAttempts }, false)

/-- Result of the inner push loop of `consolidate_item`. -/
structure MergePushOut where
  queue : List Term
  builder : FSTBuilder
  pushed : Nat
  broke : Bool
deriving DecidableEq

/-- The inner loop of `consolidate_item` for one old word: while the front
of the ordered push queue is `≤` the current old word, pop it; stop the
whole old loop if over limits, otherwise insert it (counting a success as
pushed). -/
def merge_push (c : FSTConf) (bytesOf : List Term → Nat) (oldWord : Term)
    (moved : Nat) :
    List Term → FSTBuilder → Nat → MergePushOut
  | [], b, pushed => ⟨[], b, pushed, false⟩
  | p :: rest, b, pushed =>
    if p ≤ oldWord then
      if check_over_limits c (bytesOf b.revWords) (pushed + moved) then
        ⟨rest, b, pushed, true⟩
      else
        let ins := builder_insert b p
        merge_push c bytesOf oldWord moved rest ins.1
          (if ins.2 then pushed + 1 else pushed)
    else ⟨p :: rest, b, pushed, false⟩

/-- Result of the outer old-word loop of `consolidate_item`. -/
structure MergeOldOut where
  queue : List Term
  builder : FSTBuilder
  pushed : Nat
  moved : Nat
  popped : Nat
deriving DecidableEq

/-- The labelled `'old` loop of `consolidate_item`: stream the old FST in
order; first run the inner push loop, then re-emit the old word unless it
is in the pop set, stopping everything when over limits. -/
def merge_old (c : FSTConf) (bytesOf : List Term → Nat) (popSet : Finset Term) :
    List Term → List Term → FSTBuilder → Nat → Nat → Nat → MergeOldOut
  | [], queue, b, pushed, moved, popped => ⟨queue, b, pushed, moved, popped⟩
  | w :: olds, queue, b, pushed, moved, popped =>
    let mp := merge_push c bytesOf w moved queue b pushed
    if mp.broke then ⟨mp.queue, mp.builder, mp.pushed, moved, popped⟩
    else if w ∈ popSet then
      merge_old c bytesOf popSet olds mp.queue mp.builder mp.pushed moved (popped + 1)
    else if check_over_limits c (bytesOf mp.builder.revWords) (mp.pushed + moved) then
      ⟨mp.queue, mp.builder, mp.pushed, moved, popped⟩
    else
      let ins := builder_insert mp.builder w
      merge_old c bytesOf popSet olds mp.queue ins.1 mp.pushed
        (if ins.2 then moved + 1 else moved) popped

/-- Result of the completion loop of `consolidate_item`. -/
structure MergeCompleteOut where
  builder : FSTBuilder
  pushed : Nat
deriving DecidableEq

/-- The completion loop of `consolidate_item`: drain the remaining push
queue, subject to the same limit check before each insertion. -/
def merge_complete (c : FSTConf) (bytesOf : List Term → Nat) (moved : Nat) :
    List Term → FSTBuilder → Nat → MergeCompleteOut
  | [], b, pushed => ⟨b, pushed⟩
  | p :: rest, b, pushed =>
    if check_over_limits c (bytesOf b.revWords) (pushed + moved) then ⟨b, pushed⟩
    else
      let ins := builder_insert b p
      merge_complete c bytesOf moved rest ins.1
        (if ins.2 then pushed + 1 else pushed)

/-- Result of the whole merge of `consolidate_item`. -/
structure RunMergeOut where
  builder : FSTBuilder
  pushed : Nat
  moved : Nat
  popped : Nat
deriving DecidableEq

/-- The whole streaming merge of `consolidate_item`: the old loop over
the sorted old stream against the sorted push queue, then the completion
loop on what remains of the queue. -/
def run_merge (c : FSTConf) (bytesOf : List Term → Nat) (popSet : Finset Term)
    (olds pushes : List Term) : RunMergeOut :=
  let mo := merge_old c bytesOf popSet olds pushes emptyBuilder 0 0 0
  let mc := merge_complete c bytesOf mo.moved mo.queue mo.builder mo.pushed
  ⟨mc.builder, mc.pushed, mo.moved, mo.popped⟩

/-- Outcomes of the file-system steps taken inside `consolidate_item`:
opening the old FST, creating the parent directory, creating the
temporary file, creating the builder, `finish()`, and the final rename. -/
structure ConsolidateFs where
  openOk : Bool
  dirOk : Bool
  createOk : Bool
  builderNewOk : Bool
  finishOk : Bool
  renameOk : Bool
deriving DecidableEq

/-- Return value of `consolidate_item`: the updated handle state plus the
`(should_close, count_moved, count_pushed, count_popped)` tuple. -/
structure ConsolidateOut where
  state : StoreFSTState
  shouldClose : Bool
  countMoved : Nat
  countPushed : Nat
  countPopped : Nat
deriving DecidableEq

/-- Clearing both pending sets (`*pending_push_write = HashSet::new()`
and likewise for pop). -/
def reset_pending (st : StoreFSTState) : StoreFSTState :=
  { st with push := ∅, pop := ∅ }

/-- `StoreFSTPool::consolidate_item`. Skips entirely when both pending
sets are empty; otherwise runs the merge when every file-system step up
to builder creation succeeded, marks the handle for closing exactly when
`finish()` succeeded, and clears both pending sets in all cases. -/
def consolidate_item (c : FSTConf) (bytesOf : List Term → Nat)
    (fx : ConsolidateFs) (st : StoreFSTState) : ConsolidateOut :=
  if 0 < st.push.card ∨ 0 < st.pop.card then
    if fx.openOk then
      if fx.dirOk then
        if fx.createOk then
          if fx.builderNewOk then
            let ordered_push := st.push.sort (· ≤ ·)
            let rm := run_merge c bytesOf st.pop st.graphWords ordered_push
            { state := reset_pending st, shouldClose := fx.finishOk,
              countMoved := rm.moved, countPushed := rm.pushed,
              countPopped := rm.popped }
          else
            { state := reset_pending st, shouldClose := false,
              countMoved := 0, countPushed := 0, countPopped := 0 }
        else
          { state := reset_pending st, shouldClose := false,
            countMoved := 0, countPushed := 0, countPopped := 0 }
      else
        { state := reset_pending st, shouldClose := false,
          countMoved := 0, countPushed := 0, countPopped := 0 }
    else
      { state := reset_pending st, shouldClose := false,
        countMoved := 0, countPushed := 0, countPopped := 0 }
  else
    { state := st, shouldClose := false,
      countMoved := 0, countPushed := 0, countPopped := 0 }

/-- The typo-distance computation of `StoreFST::lookup_typos`: a match on
the word's byte length whose default arm (hit by length 0 and lengths of
10 and above) yields 3. -/
def typo_factor_of (len : Nat) : Nat :=
  if len = 1 ∨ len = 2 ∨ len = 3 then 0
  else if len = 4 ∨ len = 5 ∨ len = 6 then 1
  else if len = 7 ∨ len = 8 ∨ len = 9 then 2
  else 3

/-- The distance actually used by `lookup_typos`: the length-based factor,
lowered to `max_factor` when a cap is supplied and exceeded. -/
def lookup_typos_factor (word : Term) (max_factor : Option Nat) : Nat :=
  let t := typo_factor_of word.length
  match max_factor with
  | some m => if t > m then m else t
  | none => t

/-- The distance formula as the spec words it: `d = 0` if the length is
at most 3, `d = 1` if at most 6, `d = 2` if at most 9, `d = 3` otherwise.
Stated from the spec only, for comparison with `typo_factor_of`. -/
def spec_typo_factor (len : Nat) : Nat :=
  if len ≤ 3 then 0 else if len ≤ 6 then 1 else if len ≤ 9 then 2 else 3

/-- Whether a byte is a UTF-8 continuation byte (`0x80..=0xBF`). -/
def utf8_cont (b : Nat) : Bool :=
  decide (0x80 ≤ b) && decide (b ≤ 0xBF)

/-- UTF-8 validity of a byte string, as checked by `str::from_utf8`:
ASCII, two-byte (`C2..DF`), three-byte (`E0`, `E1..EC`, `ED`, `EE..EF`
with their restricted second bytes) and four-byte (`F0`, `F1..F3`, `F4`)
sequences, rejecting overlong forms, surrogates and values above
`U+10FFFF`. -/
def valid_utf8 : List Nat → Bool
  | [] => true
  | b :: rest =>
    if b ≤ 0x7F then valid_utf8 rest
    else if 0xC2 ≤ b ∧ b ≤ 0xDF then
      match rest with
      | b1 :: rest1 => utf8_cont b1 && valid_utf8 rest1
      | [] => false
    else if b = 0xE0 then
      match rest with
      | b1 :: b2 :: rest2 =>
        (decide (0xA0 ≤ b1) && decide (b1 ≤ 0xBF)) && utf8_cont b2 &&
          valid_utf8 rest2
      | _ => false
    else if (0xE1 ≤ b ∧ b ≤ 0xEC) ∨ b = 0xEE ∨ b = 0xEF then
      match rest with
      | b1 :: b2 :: rest2 => utf8_cont b1 && utf8_cont b2 && valid_utf8 rest2
      | _ => false
    else if b = 0xED then
      match rest with
      | b1 :: b2 :: rest2 =>
        (decide (0x80 ≤ b1) && decide (b1 ≤ 0x9F)) && utf8_cont b2 &&
          valid_utf8 rest2
      | _ => false
    else if b = 0xF0 then
      match rest with
      | b1 :: b2 :: b3 :: rest3 =>
        (decide (0x90 ≤ b1) && decide (b1 ≤ 0xBF)) && utf8_cont b2 &&
          utf8_cont b3 && valid_utf8 rest3
      | _ => false
    else if 0xF1 ≤ b ∧ b ≤ 0xF3 then
      match rest with
      | b1 :: b2 :: b3 :: rest3 =>
        utf8_cont b1 && utf8_cont b2 && utf8_cont b3 && valid_utf8 rest3
      | _ => false
    else if b = 0xF4 then
      match rest with
      | b1 :: b2 :: b3 :: rest3 =>
        (decide (0x80 ≤ b1) && decide (b1 ≤ 0x8F)) && utf8_cont b2 &&
          utf8_cont b3 && valid_utf8 rest3
      | _ => false
    else false

/-- `StoreFSTAction::find_words_stream`: walk a matched stream, keep only
words that decode as UTF-8 and are not already collected, and stop once
the collected list reaches the limit. -/
def find_words_stream (limit : Nat) : List Term → List Term → List Term
  | [], found => found
  | w :: rest, found =>
    if valid_utf8 w then
      if w ∈ found then find_words_stream limit rest found
      else
        let found2 := found ++ [w]
        if limit ≤ found2.length then found2
        else find_words_stream limit rest found2
    else find_words_stream limit rest found

/-- `StoreFSTAction::suggest_words`. The two automaton streams (prefix
search, then fuzzy search) are passed in as the lists of matched terms,
`none` standing for a failed automaton build. -/
def suggest_words (from_word : Term) (limit : Nat)
    (begins_stream typos_stream : Option (List Term)) :
    Option (List Term) :=
  if word_over_limit from_word then none
  else
    let found :=
      match begins_stream with
      | some s => find_words_stream limit s []
      | none => []
    let found2 :=
      if found.length < limit then
        match typos_stream with
        | some s => find_words_stream limit s found
        | none => found
      else found
    if found2.isEmpty then none else some found2

/-- `StoreFSTAction::list_words`: convert the whole stream to strings
(failing the call on any invalid UTF-8 word), then skip `offset` and take
`limit`. -/
def list_words (graphWords : List Term) (limit offset : Nat) :
    Except Unit (List Term) :=
  if graphWords.all valid_utf8 then
    Except.ok ((graphWords.drop offset).take limit)
  else Except.error ()

/-- The journal-disjointness invariant: no term is pending in both sets. -/
def pendingDisjoint (st : StoreFSTState) : Prop :=
  ∀ t ∈ st.push, t ∉ st.pop

/-- Handle whose on-disk FST holds the single word `"a"`, with that word
pending in `pop`. -/
def cexPopStore : StoreFSTState :=
  { graphWords := [[97]], graphBytes := 1, push := ∅, pop := {[97]},
    scheduled := false, lastConsolidated := 0 }

/-- Handle whose on-disk FST is empty, with the word `"a"` pending in
`push`. -/
def cexPushStore : StoreFSTState :=
  { graphWords := [], graphBytes := 0, push := {[97]}, pop := ∅,
    scheduled := false, lastConsolidated := 0 }

/-- Handle already present in the consolidate register. -/
def cexScheduledStore : StoreFSTState :=
  { graphWords := [], graphBytes := 0, push := ∅, pop := ∅,
    scheduled := true, lastConsolidated := 0 }

/-- Handle with a one-word FST and an empty journal. -/
def plainStore : StoreFSTState :=
  { graphWords := [[98]], graphBytes := 1, push := ∅, pop := ∅,
    scheduled := false, lastConsolidated := 0 }

/-- Handle with a one-word FST and two pending pushes around it. -/
def mergeStore : StoreFSTState :=
  { graphWords := [[98]], graphBytes := 1, push := {[97], [99]}, pop := ∅,
    scheduled := true, lastConsolidated := 0 }

/-- Invariant carried through the merge loops: the builder accepted every
insert attempted on it, the attempted words are strictly descending as
stored (newest first), every attempted word is strictly below every
queued push word, and the queue is strictly ascending. -/
def MergeInv (b : FSTBuilder) (queue : List Term) : Prop :=
  b.revWords = b.revAttempts ∧
  b.revAttempts.Sorted (fun x y : Term => y < x) ∧
  (∀ a ∈ b.revAttempts, ∀ q ∈ queue, a < q) ∧
  queue.Sorted (fun x y : Term => x < y)

/-! ### Helper lemmas -/

@[simp]
theorem should_consolidate_push (now : Nat) (s : StoreFSTState) :
    (should_consolidate now s).push = s.push := by
  unfold should_consolidate; split <;> rfl

@[simp]
theorem should_consolidate_pop (now : Nat) (s : StoreFSTState) :
    (should_consolidate now s).pop = s.pop := by
  unfold should_consolidate; split <;> rfl

@[simp]
theorem should_consolidate_graphWords (now : Nat) (s : StoreFSTState) :
    (should_consolidate now s).graphWords = s.graphWords := by
  unfold should_consolidate; split <;> rfl

theorem consolidate_item_pending (c : FSTConf) (bytesOf : List Term → Nat)
    (fx : ConsolidateFs) (st : StoreFSTState) :
    (consolidate_item c bytesOf fx st).state.push = ∅ ∧
      (consolidate_item c bytesOf fx st).state.pop = ∅ := by
  unfold consolidate_item reset_pending
  split
  · split
    · split
      · split
        · split <;> exact ⟨rfl, rfl⟩
        · exact ⟨rfl, rfl⟩
      · exact ⟨rfl, rfl⟩
    · exact ⟨rfl, rfl⟩
  · next h =>
    push_neg at h
    obtain ⟨h1, h2⟩ := h
    refine ⟨Finset.card_eq_zero.mp ?_, Finset.card_eq_zero.mp ?_⟩
    · show st.push.card = 0
      omega
    · show st.pop.card = 0
      omega

theorem check_over_limits_false_lt (c : FSTConf) (bb ww : Nat)
    (h : check_over_limits c bb ww = false) : ww < c.maxWords := by
  unfold check_over_limits at h
  split_ifs at h with h1 h2
  omega

theorem builder_insert_length (b : FSTBuilder) (w : Term) :
    (builder_insert b w).1.revWords.length =
      (if (builder_insert b w).2 = true then b.revWords.length + 1
       else b.revWords.length) := by
  simp only [builder_insert]
  split <;> simp

theorem builder_insert_of_lt (b : FSTBuilder) (w : Term)
    (hsync : b.revWords = b.revAttempts)
    (hgt : ∀ a ∈ b.revAttempts, a < w) :
    builder_insert b w = (⟨w :: b.revWords, w :: b.revAttempts⟩, true) := by
  obtain ⟨rw_, ra⟩ := b
  replace hsync : rw_ = ra := hsync
  rcases rw_ with _ | ⟨last, rest⟩
  · simp [builder_insert]
  · have hlast : last < w := by
      refine hgt last ?_
      show last ∈ ra
      rw [← hsync]
      exact List.mem_cons_self last rest
    simp [builder_insert, hlast]

theorem merge_push_count (c : FSTConf) (bytesOf : List Term → Nat) (ow : Term)
    (moved : Nat) (queue : List Term) :
    ∀ (b : FSTBuilder) (pushed : Nat),
      b.revWords.length = pushed + moved →
      pushed + moved ≤ c.maxWords →
      ((merge_push c bytesOf ow moved queue b pushed).builder.revWords.length =
          (merge_push c bytesOf ow moved queue b pushed).pushed + moved ∧
        (merge_push c bytesOf ow moved queue b pushed).pushed + moved ≤
          c.maxWords) := by
  induction queue with
  | nil =>
    intro b pushed h1 h2
    exact ⟨h1, h2⟩
  | cons p rest ih =>
    intro b pushed h1 h2
    by_cases hle : p ≤ ow
    · by_cases hcap :
          check_over_limits c (bytesOf b.revWords) (pushed + moved) = true
      · simp only [merge_push, hle, if_true, hcap]
        exact ⟨h1, h2⟩
      · have hlt : pushed + moved < c.maxWords :=
          check_over_limits_false_lt c _ _ (by simpa using hcap)
        have hlen := builder_insert_length b p
        simp only [merge_push, hle, if_true, hcap, Bool.false_eq_true, if_false]
        cases hins : (builder_insert b p).2 with
        | false =>
          rw [hins] at hlen
          simp only [Bool.false_eq_true, if_false] at hlen ⊢
          exact ih _ _ (by omega) (by omega)
        | true =>
          rw [hins] at hlen
          simp only [if_true] at hlen ⊢
          exact ih _ _ (by omega) (by omega)
    · simp only [merge_push, hle, if_false]
      exact ⟨h1, h2⟩

theorem merge_old_count (c : FSTConf) (bytesOf : List Term → Nat)
    (popSet : Finset Term) (olds : List Term) :
    ∀ (queue : List Term) (b : FSTBuilder) (pushed moved popped : Nat),
      b.revWords.length = pushed + moved →
      pushed + moved ≤ c.maxWords →
      ((merge_old c bytesOf popSet olds queue b pushed moved
            popped).builder.revWords.length =
          (merge_old c bytesOf popSet olds queue b pushed moved popped).pushed +
            (merge_old c bytesOf popSet olds queue b pushed moved popped).moved ∧
        (merge_old c bytesOf popSet olds queue b pushed moved popped).pushed +
            (merge_old c bytesOf popSet olds queue b pushed moved popped).moved ≤
          c.maxWords) := by
  induction olds with
  | nil =>
    intro queue b pushed moved popped h1 h2
    exact ⟨h1, h2⟩
  | cons w olds ih =>
    intro queue b pushed moved popped h1 h2
    obtain ⟨m1, m2⟩ := merge_push_count c bytesOf w moved queue b pushed h1 h2
    by_cases hbk : (merge_push c bytesOf w moved queue b pushed).broke
    · simp only [merge_old, hbk, if_true]
      exact ⟨m1, m2⟩
    · by_cases hpop : w ∈ popSet
      · simp only [merge_old, hbk, Bool.false_eq_true, if_false, hpop, if_true]
        exact ih _ _ _ _ _ m1 m2
      · by_cases hcap : check_over_limits c
            (bytesOf (merge_push c bytesOf w moved queue b pushed).builder.revWords)
            ((merge_push c bytesOf w moved queue b pushed).pushed + moved) = true
        · simp only [merge_old, hbk, Bool.false_eq_true, if_false, hpop, hcap,
            if_true]
          exact ⟨m1, m2⟩
        · have hlt : (merge_push c bytesOf w moved queue b pushed).pushed + moved <
              c.maxWords :=
            check_over_limits_false_lt c _ _ (by simpa using hcap)
          have hlen := builder_insert_length
            (merge_push c bytesOf w moved queue b pushed).builder w
          simp only [merge_old, hbk, Bool.false_eq_true, if_false, hpop, hcap]
          cases hins : (builder_insert
              (merge_push c bytesOf w moved queue b pushed).builder w).2 with
          | false =>
            rw [hins] at hlen
            simp only [Bool.false_eq_true, if_false] at hlen ⊢
            exact ih _ _ _ _ _ (by omega) (by omega)
          | true =>
            rw [hins] at hlen
            simp only [if_true] at hlen ⊢
            exact ih _ _ _ _ _ (by omega) (by omega)

theorem merge_complete_count (c : FSTConf) (bytesOf : List Term → Nat)
    (moved : Nat) (queue : List Term) :
    ∀ (b : FSTBuilder) (pushed : Nat),
      b.revWords.length = pushed + moved →
      pushed + moved ≤ c.maxWords →
      ((merge_complete c bytesOf moved queue b pushed).builder.revWords.length =
          (merge_complete c bytesOf moved queue b pushed).pushed + moved ∧
        (merge_complete c bytesOf moved queue b pushed).pushed + moved ≤
          c.maxWords) := by
  induction queue with
  | nil =>
    intro b pushed h1 h2
    exact ⟨h1, h2⟩
  | cons p rest ih =>
    intro b pushed h1 h2
    by_cases hcap :
        check_over_limits c (bytesOf b.revWords) (pushed + moved) = true
    · simp only [merge_complete, hcap, if_true]
      exact ⟨h1, h2⟩
    · have hlt : pushed + moved < c.maxWords :=
        check_over_limits_false_lt c _ _ (by simpa using hcap)
      have hlen := builder_insert_length b p
      simp only [merge_complete, hcap, Bool.false_eq_true, if_false]
      cases hins : (builder_insert b p).2 with
      | false =>
        rw [hins] at hlen
        simp only [Bool.false_eq_true, if_false] at hlen ⊢
        exact ih _ _ (by omega) (by omega)
      | true =>
        rw [hins] at hlen
        simp only [if_true] at hlen ⊢
        exact ih _ _ (by omega) (by omega)

theorem run_merge_count (c : FSTConf) (bytesOf : List Term → Nat)
    (popSet : Finset Term) (olds pushes : List Term) :
    (run_merge c bytesOf popSet olds pushes).builder.revWords.length ≤
      c.maxWords := by
  obtain ⟨m1, m2⟩ := merge_old_count c bytesOf popSet olds pushes emptyBuilder
    0 0 0 rfl (Nat.zero_le _)
  obtain ⟨k1, k2⟩ := merge_complete_count c bytesOf
    (merge_old c bytesOf popSet olds pushes emptyBuilder 0 0 0).moved
    (merge_old c bytesOf popSet olds pushes emptyBuilder 0 0 0).queue
    (merge_old c bytesOf popSet olds pushes emptyBuilder 0 0 0).builder
    (merge_old c bytesOf popSet olds pushes emptyBuilder 0 0 0).pushed m1 m2
  show (merge_complete c bytesOf
      (merge_old c bytesOf popSet olds pushes emptyBuilder 0 0 0).moved
      (merge_old c bytesOf popSet olds pushes emptyBuilder 0 0 0).queue
      (merge_old c bytesOf popSet olds pushes emptyBuilder 0 0 0).builder
      (merge_old c bytesOf popSet olds pushes emptyBuilder 0 0 0).pushed).builder.revWords.length ≤
    c.maxWords
  omega

theorem merge_push_sorted (c : FSTConf) (bytesOf : List Term → Nat) (ow : Term)
    (moved : Nat) (queue : List Term) :
    ∀ (b : FSTBuilder) (pushed : Nat),
      MergeInv b queue →
      (∀ a ∈ b.revAttempts, a < ow) →
      (∀ p ∈ queue, p ≠ ow) →
      (MergeInv (merge_push c bytesOf ow moved queue b pushed).builder
          (merge_push c bytesOf ow moved queue b pushed).queue ∧
        (∀ a ∈ (merge_push c bytesOf ow moved queue b pushed).builder.revAttempts,
          a < ow) ∧
        (∀ p ∈ (merge_push c bytesOf ow moved queue b pushed).queue, p ∈ queue) ∧
        ((merge_push c bytesOf ow moved queue b pushed).broke = false →
          ∀ q ∈ (merge_push c bytesOf ow moved queue b pushed).queue, ow < q)) := by
  induction queue with
  | nil =>
    intro b pushed hinv hbnd _
    exact ⟨hinv, hbnd, fun p hp => hp,
      fun _ q hq => absurd hq (List.not_mem_nil q)⟩
  | cons p rest ih =>
    intro b pushed hinv hbnd hne
    obtain ⟨hsync, hdesc, hlt, hqs⟩ := hinv
    by_cases hle : p ≤ ow
    · by_cases hcap :
          check_over_limits c (bytesOf b.revWords) (pushed + moved) = true
      · simp only [merge_push, hle, if_true, hcap]
        refine ⟨⟨hsync, hdesc, ?_, hqs.of_cons⟩, hbnd, ?_, ?_⟩
        · intro a ha q hq
          exact hlt a ha q (List.mem_cons_of_mem p hq)
        · intro q hq
          exact List.mem_cons_of_mem p hq
        · intro hbkeq
          exact absurd hbkeq (by simp)
      · have hplt : p < ow :=
          lt_of_le_of_ne hle (hne p (List.mem_cons_self p rest))
        have hgt : ∀ a ∈ b.revAttempts, a < p := fun a ha =>
          hlt a ha p (List.mem_cons_self p rest)
        have hins := builder_insert_of_lt b p hsync hgt
        simp only [merge_push, hle, if_true, hcap, Bool.false_eq_true, if_false,
          hins]
        have hinv2 : MergeInv ⟨p :: b.revWords, p :: b.revAttempts⟩ rest := by
          refine ⟨by rw [hsync], List.sorted_cons.mpr ⟨hgt, hdesc⟩, ?_,
            hqs.of_cons⟩
          intro a ha q hq
          rcases List.mem_cons.mp ha with rfl | ha2
          · exact List.rel_of_sorted_cons hqs q hq
          · exact hlt a ha2 q (List.mem_cons_of_mem p hq)
        have hbnd2 : ∀ a ∈ p :: b.revAttempts, a < ow := by
          intro a ha
          rcases List.mem_cons.mp ha with rfl | ha2
          · exact hplt
          · exact hbnd a ha2
        have hne2 : ∀ q ∈ rest, q ≠ ow := fun q hq =>
          hne q (List.mem_cons_of_mem p hq)
        obtain ⟨o1, o2, o3, o4⟩ := ih ⟨p :: b.revWords, p :: b.revAttempts⟩
          (pushed + 1) hinv2 hbnd2 hne2
        exact ⟨o1, o2, fun q hq => List.mem_cons_of_mem p (o3 q hq), o4⟩
    · simp only [merge_push, hle, if_false]
      refine ⟨⟨hsync, hdesc, hlt, hqs⟩, hbnd, fun q hq => hq, ?_⟩
      intro _ q hq
      have how : ow < p := lt_of_not_le hle
      rcases List.mem_cons.mp hq with rfl | hq2
      · exact how
      · exact lt_trans how (List.rel_of_sorted_cons hqs q hq2)

theorem merge_old_sorted (c : FSTConf) (bytesOf : List Term → Nat)
    (popSet : Finset Term) (olds : List Term) :
    ∀ (queue : List Term) (b : FSTBuilder) (pushed moved popped : Nat),
      MergeInv b queue →
      (∀ a ∈ b.revAttempts, ∀ o ∈ olds, a < o) →
      olds.Sorted (fun x y : Term => x < y) →
      (∀ p ∈ queue, p ∉ olds) →
      MergeInv (merge_old c bytesOf popSet olds queue b pushed moved popped).builder
        (merge_old c bytesOf popSet olds queue b pushed moved popped).queue := by
  induction olds with
  | nil =>
    intro queue b pushed moved popped hinv _ _ _
    exact hinv
  | cons w olds ih =>
    intro queue b pushed moved popped hinv hbnd hos hdisj
    have hbw : ∀ a ∈ b.revAttempts, a < w := fun a ha =>
      hbnd a ha w (List.mem_cons_self w olds)
    have hqnw : ∀ p ∈ queue, p ≠ w := by
      intro p hp heq
      refine hdisj p hp ?_
      rw [heq]
      exact List.mem_cons_self w olds
    obtain ⟨mi, mbnd, msub, mbrk⟩ :=
      merge_push_sorted c bytesOf w moved queue b pushed hinv hbw hqnw
    by_cases hbk : (merge_push c bytesOf w moved queue b pushed).broke
    · simp only [merge_old, hbk, if_true]
      exact mi
    · by_cases hpop : w ∈ popSet
      · simp only [merge_old, hbk, Bool.false_eq_true, if_false, hpop, if_true]
        refine ih _ _ _ _ _ mi ?_ hos.of_cons ?_
        · intro a ha o ho
          exact lt_trans (mbnd a ha) (List.rel_of_sorted_cons hos o ho)
        · intro p hp hmem
          exact hdisj p (msub p hp) (List.mem_cons_of_mem w hmem)
      · by_cases hcap : check_over_limits c
            (bytesOf (merge_push c bytesOf w moved queue b pushed).builder.revWords)
            ((merge_push c bytesOf w moved queue b pushed).pushed + moved) = true
        · simp only [merge_old, hbk, Bool.false_eq_true, if_false, hpop, hcap,
            if_true]
          exact mi
        · have hins := builder_insert_of_lt
            (merge_push c bytesOf w moved queue b pushed).builder w mi.1 mbnd
          simp only [merge_old, hbk, Bool.false_eq_true, if_false, hpop, hcap,
            hins]
          refine ih _ _ _ _ _ ?_ ?_ hos.of_cons ?_
          · refine ⟨by rw [mi.1], List.sorted_cons.mpr ⟨mbnd, mi.2.1⟩, ?_,
              mi.2.2.2⟩
            intro a ha q hq
            rcases List.mem_cons.mp ha with rfl | ha2
            · exact mbrk (by simpa using hbk) q hq
            · exact mi.2.2.1 a ha2 q hq
          · intro a ha o ho
            rcases List.mem_cons.mp ha with rfl | ha2
            · exact List.rel_of_sorted_cons hos o ho
            · exact lt_trans (mbnd a ha2) (List.rel_of_sorted_cons hos o ho)
          · intro p hp hmem
            exact hdisj p (msub p hp) (List.mem_cons_of_mem w hmem)

theorem merge_complete_sorted (c : FSTConf) (bytesOf : List Term → Nat)
    (moved : Nat) (queue : List Term) :
    ∀ (b : FSTBuilder) (pushed : Nat),
      MergeInv b queue →
      ((merge_complete c bytesOf moved queue b pushed).builder.revWords =
          (merge_complete c bytesOf moved queue b pushed).builder.revAttempts ∧
        (merge_complete c bytesOf moved queue b pushed).builder.revAttempts.Sorted
          (fun x y : Term => y < x)) := by
  induction queue with
  | nil =>
    intro b pushed hinv
    exact ⟨hinv.1, hinv.2.1⟩
  | cons p rest ih =>
    intro b pushed hinv
    obtain ⟨hsync, hdesc, hlt, hqs⟩ := hinv
    by_cases hcap :
        check_over_limits c (bytesOf b.revWords) (pushed + moved) = true
    · simp only [merge_complete, hcap, if_true]
      exact ⟨hsync, hdesc⟩
    · have hgt : ∀ a ∈ b.revAttempts, a < p := fun a ha =>
        hlt a ha p (List.mem_cons_self p rest)
      have hins := builder_insert_of_lt b p hsync hgt
      simp only [merge_complete, hcap, Bool.false_eq_true, if_false, hins]
      refine ih _ _ ⟨by rw [hsync], List.sorted_cons.mpr ⟨hgt, hdesc⟩, ?_,
        hqs.of_cons⟩
      intro a ha q hq
      rcases List.mem_cons.mp ha with rfl | ha2
      · exact List.rel_of_sorted_cons hqs q hq
      · exact hlt a ha2 q (List.mem_cons_of_mem p hq)

theorem run_merge_sorted (c : FSTConf) (bytesOf : List Term → Nat)
    (popSet : Finset Term) (olds pushes : List Term)
    (hos : olds.Sorted (fun x y : Term => x < y))
    (hps : pushes.Sorted (fun x y : Term => x < y))
    (hdisj : ∀ p ∈ pushes, p ∉ olds) :
    (run_merge c bytesOf popSet olds pushes).builder.revWords =
        (run_merge c bytesOf popSet olds pushes).builder.revAttempts ∧
      (run_merge c bytesOf popSet olds pushes).builder.revAttempts.reverse.Sorted
        (fun x y : Term => x < y) := by
  have hmo := merge_old_sorted c bytesOf popSet olds pushes emptyBuilder 0 0 0
    ⟨rfl, List.sorted_nil, fun a ha => absurd ha (List.not_mem_nil a), hps⟩
    (fun a ha => absurd ha (List.not_mem_nil a)) hos hdisj
  have hmc := merge_complete_sorted c bytesOf
    (merge_old c bytesOf popSet olds pushes emptyBuilder 0 0 0).moved
    (merge_old c bytesOf popSet olds pushes emptyBuilder 0 0 0).queue
    (merge_old c bytesOf popSet olds pushes emptyBuilder 0 0 0).builder
    (merge_old c bytesOf popSet olds pushes emptyBuilder 0 0 0).pushed hmo
  exact ⟨hmc.1, List.pairwise_reverse.mpr hmc.2⟩

/-! ### Claim theorems -/

/-- Claim C4: after `consolidate_item` runs on a handle, both of its
pending sets are empty, whether or not opening the old FST, building,
finishing or renaming succeeded. -/
theorem consolidate_clears_pending (c : FSTConf) (bytesOf : List Term → Nat)
    (fx : ConsolidateFs) (st : StoreFSTState) :
    (consolidate_item c bytesOf fx st).state.push = ∅ ∧
      (consolidate_item c bytesOf fx st).state.pop = ∅ :=
  consolidate_item_pending c bytesOf fx st

/-- Claim C6 (corrected): `should_consolidate` always leaves the key
scheduled, but bumps `last_consolidated` to the current time only when
the key was not already in the consolidate register; a call made while
the key is present leaves the timestamp unchanged. -/
theorem schedule_bump_eq (now : Nat) (st : StoreFSTState) :
    (should_consolidate now st).lastConsolidated =
      (if st.scheduled then st.lastConsolidated else now) ∧
    (should_consolidate now st).scheduled = true := by
  unfold should_consolidate
  cases hs : st.scheduled <;> simp [hs]

/-- Claim C6 counterexample: a call to `should_consolidate` made while
the key is already in the consolidate register does not set
`last_consolidated` to the current time. -/
theorem schedule_no_bump_cex :
    cexScheduledStore.scheduled = true ∧
      (should_consolidate 5 cexScheduledStore).lastConsolidated ≠ 5 := by
  decide

/-- Claim C9: a term of exactly 40 bytes passes the length check, and for
any longer term `push_word` and `pop_word` return false with the handle
state untouched while `suggest_words` returns none. -/
theorem word_limit_boundary (c : FSTConf) (now : Nat) (st : StoreFSTState)
    (w : Term) (limit : Nat) (bs ts : Option (List Term)) :
    (w.length = 40 → word_over_limit w = false) ∧
    (40 < w.length →
      word_over_limit w = true ∧
      push_word c now st w = (false, st) ∧
      pop_word now st w = (false, st) ∧
      suggest_words w limit bs ts = none) := by
  constructor
  · intro h
    simp [word_over_limit, WORD_LIMIT_LENGTH, h]
  · intro h
    have hol : word_over_limit w = true := by
      simp [word_over_limit, WORD_LIMIT_LENGTH]
      omega
    refine ⟨hol, ?_, ?_, ?_⟩ <;> simp [push_word, pop_word, suggest_words, hol]

/-- Claim C9 witness at a 40-byte word and a 41-byte word. -/
theorem word_limit_boundary_w :
    word_over_limit (List.replicate 40 97) = false ∧
    (word_over_limit (List.replicate 41 97) = true ∧
      push_word ⟨1, 10⟩ 0 plainStore (List.replicate 41 97) = (false, plainStore) ∧
      pop_word 0 plainStore (List.replicate 41 97) = (false, plainStore) ∧
      suggest_words (List.replicate 41 97) 3 none none = none) :=
  ⟨(word_limit_boundary ⟨1, 10⟩ 0 plainStore (List.replicate 40 97) 3 none none).1
      (by decide),
   (word_limit_boundary ⟨1, 10⟩ 0 plainStore (List.replicate 41 97) 3 none none).2
      (by decide)⟩

/-- The code's length-to-distance match agrees with the spec's formula on
every nonzero length. -/
theorem typo_factor_of_eq_spec (n : Nat) (h : n ≠ 0) :
    typo_factor_of n = spec_typo_factor n := by
  unfold typo_factor_of spec_typo_factor
  split_ifs <;> omega

/-- Claim C5 counterexample: for the empty query word the code computes
typo factor 3, while the claim's formula demands 0 for every length at
most 3. -/
theorem typo_factor_cex :
    lookup_typos_factor [] none = 3 ∧ spec_typo_factor ([] : Term).length = 0 ∧
      lookup_typos_factor [] none ≠ spec_typo_factor ([] : Term).length := by
  decide

/-- Claim C5 (corrected): for every nonempty query word, the typo factor
is the spec's length-based distance, lowered to `max_factor` when that
cap is supplied (the empty word instead falls into the default arm and
gets distance 3). -/
theorem typo_factor_eq (w : Term) (mf : Option Nat) (h : w.length ≠ 0) :
    lookup_typos_factor w mf =
      (match mf with
       | none => spec_typo_factor w.length
       | some m => min (spec_typo_factor w.length) m) := by
  have ht := typo_factor_of_eq_spec w.length h
  rcases mf with _ | m
  · simpa [lookup_typos_factor] using ht
  · simp only [lookup_typos_factor, ht, Nat.min_def]
    split_ifs <;> omega

/-- Claim C5 witness: a 7-byte word with cap 1 gets factor min(2,1) = 1. -/
theorem typo_factor_eq_w :
    lookup_typos_factor (List.replicate 7 97) (some 1) =
      min (spec_typo_factor (List.replicate 7 97 : Term).length) 1 :=
  typo_factor_eq (List.replicate 7 97) (some 1) (by decide)

/-- Claim C1 counterexample: with `"a"` pending in `pop` (and present in
the FST), `push_word "a"` reports false, not true; with `"a"` pending in
`push` (and absent from the FST), `pop_word "a"` reports false, not true. -/
theorem cancellation_flag_cex :
    ([97] ∈ cexPopStore.pop ∧ (push_word ⟨1, 10⟩ 7 cexPopStore [97]).1 = false) ∧
      ([97] ∈ cexPushStore.push ∧ (pop_word 7 cexPushStore [97]).1 = false) := by
  decide

/-- Claim C1 (corrected): for a within-limit term, cancellation removes
the pending entry but the reported boolean comes from the subsequent
insert test, so under the journal invariants it is false: `push_word` on
a term pending in `pop` (hence present in the FST) removes it from `pop`
and returns false, and `pop_word` on a term pending in `push` (hence
absent from the FST) removes it from `push` and returns false. -/
theorem cancellation_removes_pending (c : FSTConf) (now : Nat)
    (st : StoreFSTState) (w : Term) (hlen : w.length ≤ 40) :
    (w ∈ st.pop → w ∈ st.graphWords →
      push_word c now st w = (false, { st with pop := st.pop.erase w })) ∧
    (w ∈ st.push → w ∉ st.graphWords →
      pop_word now st w = (false, { st with push := st.push.erase w })) := by
  have hol : word_over_limit w = false := by
    simp [word_over_limit, WORD_LIMIT_LENGTH]
    omega
  constructor
  · intro hpop hg
    simp [push_word, hol, hpop, hg]
  · intro hpush hg
    simp [pop_word, hol, hpush, hg]

/-- Claim C1 witness at the two concrete handles of the counterexample. -/
theorem cancellation_removes_pending_w :
    push_word ⟨1, 10⟩ 7 cexPopStore [97] =
        (false, { cexPopStore with pop := cexPopStore.pop.erase [97] }) ∧
      pop_word 7 cexPushStore [97] =
        (false, { cexPushStore with push := cexPushStore.push.erase [97] }) :=
  ⟨(cancellation_removes_pending ⟨1, 10⟩ 7 cexPopStore [97] (by decide)).1
      (by decide) (by decide),
   (cancellation_removes_pending ⟨1, 10⟩ 7 cexPushStore [97] (by decide)).2
      (by decide) (by decide)⟩

/-- Claim C10: `find_words_stream` behaves on any stream exactly as on
the stream with the invalid-UTF-8 words removed, so such words are
dropped silently and never count toward the limit, while `list_words`
fails the whole call as soon as any word of the FST is invalid. -/
theorem invalid_utf8_handling (stream found : List Term) (limit : Nat)
    (words : List Term) (lim off : Nat) :
    find_words_stream limit stream found =
      find_words_stream limit (stream.filter valid_utf8) found ∧
    ((∃ w ∈ words, valid_utf8 w = false) →
      list_words words lim off = Except.error ()) := by
  constructor
  · induction stream generalizing found with
    | nil => rfl
    | cons w rest ih =>
      by_cases hv : valid_utf8 w
      · by_cases hm : w ∈ found
        · simp [find_words_stream, List.filter_cons, hv, hm, ih]
        · simp only [find_words_stream, List.filter_cons, hv, if_true, hm,
            if_false, ite_false]
          split
          · rfl
          · exact ih (found ++ [w])
      · simp [find_words_stream, List.filter_cons, hv, ih]
  · rintro ⟨w, hw, hv⟩
    unfold list_words
    rw [if_neg]
    intro hall
    rw [List.all_eq_true] at hall
    have := hall w hw
    rw [hv] at this
    exact Bool.false_ne_true this

/-- Claim C10 witness: a stream holding the invalid byte string `[0xFF]`
and the valid word `"a"`. -/
theorem invalid_utf8_handling_w :
    find_words_stream 5 [[255], [97]] [] =
        find_words_stream 5 ([[255], [97]].filter valid_utf8) [] ∧
      list_words [[255]] 1 0 = Except.error () :=
  ⟨(invalid_utf8_handling [[255], [97]] [] 5 [[255]] 1 0).1,
   (invalid_utf8_handling [[255], [97]] [] 5 [[255]] 1 0).2
      ⟨[255], by decide, by decide⟩⟩

/-- Claim C7: each of `push_word`, `pop_word` and `consolidate_item`
preserves the journal invariant that no term is pending in both the
`push` set and the `pop` set. -/
theorem pending_disjoint_preserved (c : FSTConf) (bytesOf : List Term → Nat)
    (fx : ConsolidateFs) (now : Nat) (st : StoreFSTState) (w : Term)
    (h : pendingDisjoint st) :
    pendingDisjoint (push_word c now st w).2 ∧
      pendingDisjoint (pop_word now st w).2 ∧
      pendingDisjoint (consolidate_item c bytesOf fx st).state := by
  refine ⟨?_, ?_, ?_⟩
  · by_cases hol : word_over_limit w
    · simpa [push_word, hol] using h
    · by_cases hpop : w ∈ st.pop
      · simp only [push_word, hol, Bool.false_eq_true, if_false, hpop, if_true]
        split_ifs with hcond
        · intro t ht htp
          simp only [should_consolidate_push, should_consolidate_pop,
            Finset.mem_insert] at ht htp
          rcases ht with rfl | ht
          · exact Finset.not_mem_erase t st.pop htp
          · exact h t ht (Finset.mem_of_mem_erase htp)
        · intro t ht htp
          exact h t ht (Finset.mem_of_mem_erase htp)
      · simp only [push_word, hol, Bool.false_eq_true, if_false, hpop, if_false]
        split_ifs with hcond
        · intro t ht htp
          simp only [should_consolidate_push, should_consolidate_pop,
            Finset.mem_insert] at ht htp
          rcases ht with rfl | ht
          · exact hpop htp
          · exact h t ht htp
        · exact h
  · by_cases hol : word_over_limit w
    · simpa [pop_word, hol] using h
    · by_cases hpush : w ∈ st.push
      · simp only [pop_word, hol, Bool.false_eq_true, if_false, hpush, if_true]
        split_ifs with hcond
        · intro t ht htp
          simp only [should_consolidate_push, should_consolidate_pop,
            Finset.mem_insert] at ht htp
          rcases htp with rfl | htp
          · exact Finset.not_mem_erase t st.push ht
          · exact h t (Finset.mem_of_mem_erase ht) htp
        · intro t ht htp
          exact h t (Finset.mem_of_mem_erase ht) htp
      · simp only [pop_word, hol, Bool.false_eq_true, if_false, hpush, if_false]
        split_ifs with hcond
        · intro t ht htp
          simp only [should_consolidate_push, should_consolidate_pop,
            Finset.mem_insert] at ht htp
          rcases htp with rfl | htp
          · exact hpush ht
          · exact h t ht htp
        · exact h
  · intro t ht
    rw [(consolidate_item_pending c bytesOf fx st).1] at ht
    exact absurd ht (Finset.not_mem_empty t)

/-- Claim C7 witness at a concrete disjoint handle. -/
theorem pending_disjoint_preserved_w :
    pendingDisjoint (push_word ⟨1, 10⟩ 0 mergeStore [97]).2 ∧
      pendingDisjoint (pop_word 0 mergeStore [97]).2 ∧
      pendingDisjoint
        (consolidate_item ⟨1, 10⟩ (fun _ => 0) ⟨true, true, true, true, true, true⟩
          mergeStore).state :=
  pending_disjoint_preserved ⟨1, 10⟩ (fun _ => 0)
    ⟨true, true, true, true, true, true⟩ 0 mergeStore [97]
    (by unfold pendingDisjoint; decide)

/-- Claim C8: starting from an empty journal, `push_word` then `pop_word`
of a term absent from the FST leaves both pending sets empty, and
`pop_word` then `push_word` of a term present in the FST leaves both
pending sets empty. -/
theorem push_pop_cancellation (c : FSTConf) (n1 n2 : Nat) (st : StoreFSTState)
    (w : Term) (hpush : st.push = ∅) (hpop : st.pop = ∅) :
    (w ∉ st.graphWords →
      (pop_word n2 (push_word c n1 st w).2 w).2.push = ∅ ∧
        (pop_word n2 (push_word c n1 st w).2 w).2.pop = ∅) ∧
    (w ∈ st.graphWords →
      (push_word c n2 (pop_word n1 st w).2 w).2.push = ∅ ∧
        (push_word c n2 (pop_word n1 st w).2 w).2.pop = ∅) := by
  obtain ⟨g, gb, pu, po, sc, lc⟩ := st
  replace hpush : pu = ∅ := hpush
  replace hpop : po = ∅ := hpop
  subst hpush
  subst hpop
  by_cases hol : word_over_limit w
  · constructor <;> intro hg <;> simp [push_word, pop_word, hol]
  · constructor
    · intro hg
      by_cases hmax : 0 < c.maxWords
      · by_cases hlim : check_over_limits c gb g.length = false
        · simp [push_word, pop_word, hol, hg, hmax, hlim,
            Finset.erase_insert_eq_erase]
        · simp [push_word, pop_word, hol, hg, hmax, hlim]
      · simp [push_word, pop_word, hol, hg, hmax]
    · intro hg
      simp [push_word, pop_word, hol, hg, Finset.erase_insert_eq_erase]

/-- Claim C8 witness: the absent term `"a"` and the present term `"b"`
against a handle whose FST holds exactly `"b"`. -/
theorem push_pop_cancellation_w :
    ((pop_word 2 (push_word ⟨1, 10⟩ 1 plainStore [97]).2 [97]).2.push = ∅ ∧
        (pop_word 2 (push_word ⟨1, 10⟩ 1 plainStore [97]).2 [97]).2.pop = ∅) ∧
      ((push_word ⟨1, 10⟩ 2 (pop_word 1 plainStore [98]).2 [98]).2.push = ∅ ∧
        (push_word ⟨1, 10⟩ 2 (pop_word 1 plainStore [98]).2 [98]).2.pop = ∅) :=
  ⟨(push_pop_cancellation ⟨1, 10⟩ 1 2 plainStore [97] (by decide) (by decide)).1
      (by decide),
   (push_pop_cancellation ⟨1, 10⟩ 1 2 plainStore [98] (by decide) (by decide)).2
      (by decide)⟩

/-- Claim C3: the cap test is exactly (builder bytes ≥ max_size·1024) or
(pushed+moved count ≥ max_words); it runs before every emission of the
merge, so the number of words accepted by the builder never exceeds
max_words, and the partial FST is still finalized and installed — on a
run with pending work whose file-system steps succeed, the handle is
marked for closing whatever the caps truncated. -/
theorem consolidation_caps (c : FSTConf) (bytesOf : List Term → Nat)
    (fx : ConsolidateFs) (st : StoreFSTState) (bb ww : Nat)
    (hopen : fx.openOk = true) (hdir : fx.dirOk = true)
    (hcreate : fx.createOk = true) (hbn : fx.builderNewOk = true)
    (hfin : fx.finishOk = true) (hne : 0 < st.push.card ∨ 0 < st.pop.card) :
    check_over_limits c bb ww =
        (decide (c.maxSize * 1024 ≤ bb) || decide (c.maxWords ≤ ww)) ∧
    (run_merge c bytesOf st.pop st.graphWords
        (st.push.sort (· ≤ ·))).builder.revWords.length ≤ c.maxWords ∧
    (consolidate_item c bytesOf fx st).shouldClose = true := by
  refine ⟨?_, run_merge_count c bytesOf st.pop st.graphWords _, ?_⟩
  · unfold check_over_limits
    split_ifs with h1 h2
    · simp [h1]
    · simp [h2]
    · simp [h1, h2]
  · have hne2 : st.push.Nonempty ∨ st.pop.Nonempty := by
      rcases hne with h | h
      · exact Or.inl (Finset.card_pos.mp h)
      · exact Or.inr (Finset.card_pos.mp h)
    simp [consolidate_item, hopen, hdir, hcreate, hbn, hfin, hne2]

/-- Claim C3 witness at a concrete handle and configuration. -/
theorem consolidation_caps_w :
    check_over_limits ⟨1, 10⟩ 5 7 =
        (decide (1 * 1024 ≤ 5) || decide (10 ≤ 7)) ∧
    (run_merge ⟨1, 10⟩ (fun _ => 0) mergeStore.pop mergeStore.graphWords
        (mergeStore.push.sort (· ≤ ·))).builder.revWords.length ≤ 10 ∧
    (consolidate_item ⟨1, 10⟩ (fun _ => 0) ⟨true, true, true, true, true, true⟩
        mergeStore).shouldClose = true :=
  consolidation_caps ⟨1, 10⟩ (fun _ => 0) ⟨true, true, true, true, true, true⟩
    mergeStore 5 7 rfl rfl rfl rfl rfl (by decide)

/-- Claim C2: in a consolidation run of one key whose old FST stream is
strictly ascending and whose pending pushes avoid the old terms (which is
how `push_word` builds the push set), the sequence of terms handed to the
FST builder — the sorted pushed terms interleaved with the old terms that
survive the pop set — is strictly ascending in byte-lexicographic order,
and consequently the builder accepts every insert. -/
theorem consolidation_inserts_sorted (c : FSTConf) (bytesOf : List Term → Nat)
    (st : StoreFSTState)
    (hg : st.graphWords.Sorted (fun x y : Term => x < y))
    (hdisj : ∀ p ∈ st.push, p ∉ st.graphWords) :
    (run_merge c bytesOf st.pop st.graphWords
        (st.push.sort (· ≤ ·))).builder.revAttempts.reverse.Sorted
        (fun x y : Term => x < y) ∧
      (run_merge c bytesOf st.pop st.graphWords
          (st.push.sort (· ≤ ·))).builder.revWords =
        (run_merge c bytesOf st.pop st.graphWords
            (st.push.sort (· ≤ ·))).builder.revAttempts := by
  have hps : (st.push.sort (· ≤ ·)).Sorted (fun x y : Term => x < y) :=
    Finset.sort_sorted_lt st.push
  have hd : ∀ p ∈ st.push.sort (· ≤ ·), p ∉ st.graphWords := by
    intro p hp
    exact hdisj p ((Finset.mem_sort (· ≤ ·)).mp hp)
  obtain ⟨h1, h2⟩ := run_merge_sorted c bytesOf st.pop st.graphWords
    (st.push.sort (· ≤ ·)) hg hps hd
  exact ⟨h2, h1⟩

/-- Claim C2 witness at a concrete handle: FST `["b"]` with pending
pushes `{"a", "c"}`. -/
theorem consolidation_inserts_sorted_w :
    (run_merge ⟨1, 10⟩ (fun _ => 0) mergeStore.pop mergeStore.graphWords
        (mergeStore.push.sort (· ≤ ·))).builder.revAttempts.reverse.Sorted
        (fun x y : Term => x < y) ∧
      (run_merge ⟨1, 10⟩ (fun _ => 0) mergeStore.pop mergeStore.graphWords
          (mergeStore.push.sort (· ≤ ·))).builder.revWords =
        (run_merge ⟨1, 10⟩ (fun _ => 0) mergeStore.pop mergeStore.graphWords
            (mergeStore.push.sort (· ≤ ·))).builder.revAttempts :=
  consolidation_inserts_sorted ⟨1, 10⟩ (fun _ => 0) mergeStore (by decide)
    (by decide)

end Sonic
